import Mathlib

/-!
Verification of the RGGP Game Genie ROM patcher (`src/main.rs`).

The decoder `parse_nes` and the NES arm of `main` are embedded shallowly:

* bytes and nibbles are `Nat`s; u8/u16/u64 arithmetic is mirrored with an
  explicit `% 2 ^ w` exactly where the Rust value has that width;
* the open ROM file handle is a function `Nat → Except Unit Nat`: `file off`
  is the outcome of `read_at` of one byte at offset `off`, where an in-bounds
  read yields the stored byte, a read at or past the end of the file returns
  the zero-initialised buffer unchanged (`read_at` returns `Ok(0)` bytes
  there), and `.error` is a genuine I/O failure whose `expect` aborts the run;
* `write_at` of one byte follows POSIX `pwrite`: in bounds it replaces the
  byte, past the end it extends the file with a zero-filled gap;
* `std::process::exit(32)`, `panic!` / failed `expect` / `todo!`, and the
  early `return`s of `main` are the constructors of `Outcome`.
-/

set_option maxHeartbeats 1000000

namespace RGGP

/-- The 16-symbol Game Genie alphabet (Rust `NES_CONVERSION`); the character
at position `k` maps to the nibble value `k`. -/
def NES_CONVERSION : List Char :=
  ['A', 'P', 'Z', 'L', 'G', 'I', 'T', 'Y', 'E', 'O', 'X', 'U', 'K', 'S', 'V', 'N']

/-- Index of the first occurrence of `c` in `l`, mirroring
`l.iter().position(|&x| x == c)`. -/
def position (c : Char) : List Char → Option Nat
  | [] => none
  | x :: xs => if x = c then some 0 else (position c xs).map (· + 1)

/-- How decoding one code can fail: a character outside the alphabet
(the Rust code calls `std::process::exit(32)`), a length that is neither 6
nor 8 (the Rust code panics), or a failed image read (the `expect` panics). -/
inductive CodeErr
  | invalidChar
  | invalidLength
  | readFailed
deriving DecidableEq

/-- Map every character of a code through the alphabet, in order, failing at
the first character that is not a member — the Rust
`code.chars().map(|i| match NES_CONVERSION.iter().position(...) ...).collect()`,
whose `None` arm exits the process. -/
def decode_chars : List Char → Except CodeErr (List Nat)
  | [] => .ok []
  | ch :: rest =>
      match position ch NES_CONVERSION with
      | some x =>
          match decode_chars rest with
          | .ok xs => .ok (x :: xs)
          | .error e => .error e
      | none => .error .invalidChar

/-- The read handle of an image given as a list of bytes: `read_at` of one
byte never fails, returns the stored byte in bounds and leaves the
zero-initialised buffer untouched at or past the end of the file. -/
def fileOf (img : List Nat) : Nat → Except Unit Nat :=
  fun off => .ok (img.getD off 0)

/-- The NES code decoder, Rust `parse_nes(code, file, base_offset) -> (u64, u8)`.
Its result is the `(offset, value)` pair to write, or the way it aborted the
process. `data_hex` is the decoded nibble list; the `r` values mirror the
`res_data` array assignments line for line (the Rust `+` on the two disjointly
masked nibbles). The 6-character branch never consults `file`. -/
def parse_nes (code : List Char) (file : Nat → Except Unit Nat) (base_offset : Nat) :
    Except CodeErr (Nat × Nat) :=
  if code.length = 6 then
    match decode_chars code with
    | .error e => .error e
    | .ok data_hex =>
        let d := fun i => data_hex.getD i 0
        let r0 := d 3 &&& 0b0111
        let r1 := (d 5 &&& 0b0111) + (d 4 &&& 0b1000)
        let r2 := (d 2 &&& 0b0111) + (d 1 &&& 0b1000)
        let r3 := (d 4 &&& 0b0111) + (d 3 &&& 0b1000)
        let r4 := (d 1 &&& 0b0111) + (d 0 &&& 0b1000)
        let r5 := (d 0 &&& 0b0111) + (d 5 &&& 0b1000)
        let address := (r0 <<< 12) + (r1 <<< 8) + (r2 <<< 4) + r3
        .ok ((address + base_offset) % 2 ^ 64, ((r4 <<< 4) + r5) % 2 ^ 8)
  else if code.length = 8 then
    match decode_chars code with
    | .error e => .error e
    | .ok data_hex =>
        let d := fun i => data_hex.getD i 0
        let r0 := d 3 &&& 0b0111
        let r1 := (d 5 &&& 0b0111) + (d 4 &&& 0b1000)
        let r2 := (d 2 &&& 0b0111) + (d 1 &&& 0b1000)
        let r3 := (d 4 &&& 0b0111) + (d 3 &&& 0b1000)
        let r4 := (d 1 &&& 0b0111) + (d 0 &&& 0b1000)
        let r5 := (d 0 &&& 0b0111) + (d 7 &&& 0b1000)
        let r6 := (d 7 &&& 0b0111) + (d 6 &&& 0b1000)
        let r7 := (d 6 &&& 0b0111) + (d 5 &&& 0b1000)
        let address := ((r0 <<< 12) + (r1 <<< 8) + (r2 <<< 4) + r3) % 2 ^ 16
        let location := (address + base_offset) % 2 ^ 64
        match file location with
        | .error _ => .error .readFailed
        | .ok check_byte =>
            if check_byte ≠ ((r6 <<< 4) + r7) % 2 ^ 8 then
              .ok (location, check_byte)
            else
              .ok (location, ((r4 <<< 4) + r5) % 2 ^ 8)
  else .error .invalidLength

/-- One-byte positioned write, Rust `file.write_at(&[v], off)` with POSIX
`pwrite` semantics: in bounds the byte is replaced; at or past the end the
file is extended with a zero-filled gap so that the byte lands at `off`. -/
def writeByte (img : List Nat) (off v : Nat) : List Nat :=
  if off < img.length then img.set off v
  else img ++ List.replicate (off - img.length) 0 ++ [v]

/-- How a run of the program ends: the loop completed, `main` returned early
(copy/open failure), the process exited with status 32 (invalid character),
or a panic (invalid code length, failed `expect`). -/
inductive Outcome
  | completed
  | returnedEarly
  | exitCode32
  | panicked
deriving DecidableEq

/-- The `Nintendo | NES` arm of `main` on an already-opened image: decode each
code at the running `global_offset` (a u64), write the decoded byte at the
decoded offset, and advance the offset by `0x8000` per code. The second
component is the image content when the run ends. -/
def applyNES (codes : List (List Char)) (base : Nat) (img : List Nat) :
    Outcome × List Nat :=
  match codes with
  | [] => (.completed, img)
  | code :: rest =>
      match parse_nes code (fileOf img) base with
      | .error .invalidChar => (.exitCode32, img)
      | .error _ => (.panicked, img)
      | .ok (off, data) =>
          applyNES rest ((base + 0x8000) % 2 ^ 64) (writeByte img off data)

/-- The whole NES run of `main` on an already-opened image: `global_offset`
starts at the 0x10 header size. -/
def runNES (codes : List (List Char)) (img : List Nat) : Outcome × List Nat :=
  applyNES codes 0x10 img

/-- Modelled from the spec (§4.2): the Patch Applier worded by index — the
i-th code (0-indexed) is decoded with Base Offset exactly `0x10 + i * 0x8000`.
Used to state that the code's accumulating loop refines this description. -/
def applyNES_spec (codes : List (List Char)) (i : Nat) (img : List Nat) :
    Outcome × List Nat :=
  match codes with
  | [] => (.completed, img)
  | code :: rest =>
      match parse_nes code (fileOf img) (0x10 + i * 0x8000) with
      | .error .invalidChar => (.exitCode32, img)
      | .error _ => (.panicked, img)
      | .ok (off, data) => applyNES_spec rest (i + 1) (writeByte img off data)

/-- Decode one code against the current image and perform its single write:
one iteration of the NES loop at a fixed base offset. -/
def applyCode (code : List Char) (b : Nat) (img : List Nat) : List Nat :=
  match parse_nes code (fileOf img) b with
  | .ok (off, data) => writeByte img off data
  | .error _ => img

/-- The I/O environment of one run: whether the `fs::copy` succeeds, whether
opening the destination for read/write succeeds, what (if anything) is stored
at the destination path when the copy fails, and which loop iterations'
positioned reads and writes fail with an I/O error. -/
structure Env where
  copyOk : Bool
  openOk : Bool
  preexisting : Option (List Nat)
  readFails : Nat → Bool
  writeFails : Nat → Bool

/-- The NES patch loop with fallible positioned I/O: on iteration `n`, the
compare read or the write can fail, and the failed `expect` aborts the run as
a panic, leaving the image as it stands. -/
def applyLoop (env : Env) (n : Nat) (codes : List (List Char)) (base : Nat)
    (img : List Nat) : Outcome × List Nat :=
  match codes with
  | [] => (.completed, img)
  | code :: rest =>
      match parse_nes code
          (fun off => if env.readFails n then .error () else .ok (img.getD off 0))
          base with
      | .error .invalidChar => (.exitCode32, img)
      | .error _ => (.panicked, img)
      | .ok (off, data) =>
          if env.writeFails n then (.panicked, img)
          else applyLoop env (n + 1) rest ((base + 0x8000) % 2 ^ 64)
              (writeByte img off data)

/-- `main` for the NES mode from the copy step on. The result of `fs::copy` is
discarded (`let _ = copy(&args.rom_in, &args.rom_out);`), so a failed copy
leaves whatever was at the destination before. If the destination cannot be
opened, it is removed when present and `main` returns early. Otherwise the
patch loop runs on the opened content. The second component is the content of
the output file when the run ends; `none` means the file does not exist. -/
def runMain (env : Env) (romIn : List Nat) (codes : List (List Char)) :
    Outcome × Option (List Nat) :=
  match (if env.copyOk then some romIn else env.preexisting : Option (List Nat)) with
  | none => (.returnedEarly, none)
  | some content =>
      if env.openOk then
        let p := applyLoop env 0 codes 0x10 content
        (p.1, some p.2)
      else
        (.returnedEarly, none)

/-- A code the decoder accepts without aborting: length 6 or 8 and every
character a member of the alphabet. -/
def validCode (code : List Char) : Prop :=
  (code.length = 6 ∨ code.length = 8) ∧ ∀ ch ∈ code, ch ∈ NES_CONVERSION

/-- Decidability of `validCode`, used to check concrete codes. -/
instance : DecidablePred validCode := fun code => by
  unfold validCode
  infer_instance

/-! ### Bitwise facts

The spec combines the disjointly masked nibbles with `|` where the source
uses `+`; on operands with disjoint bits the two agree. -/

/-- `2 ^ 64` as a literal, for `omega`. -/
lemma two_pow_64 : (2 : Nat) ^ 64 = 18446744073709551616 := by norm_num

/-- Bitwise or is addition when the low `k` bits of the left operand are clear
and the right operand fits in them. -/
theorem or_eq_add : ∀ (k a b : Nat), 2 ^ k ∣ a → b < 2 ^ k → a ||| b = a + b := by
  intro k
  induction k with
  | zero =>
    intro a b _ hb
    interval_cases b
    simp
  | succ k ih =>
    intro a b ha hb
    rw [pow_succ] at ha hb
    obtain ⟨a', rfl⟩ : 2 ∣ a := dvd_trans (dvd_mul_left 2 (2 ^ k)) ha
    have ha' : 2 ^ k ∣ a' := by
      rcases ha with ⟨c, hc⟩
      have h2 : 2 * a' = 2 * (2 ^ k * c) := by rw [hc]; ring
      exact ⟨c, by omega⟩
    have hb' : b / 2 < 2 ^ k := by omega
    have hbit : (2 * a' : Nat) = Nat.bit false a' := by simp [Nat.bit_val]
    have hbbit : b = Nat.bit (decide (b % 2 = 1)) (b / 2) := by
      rcases Nat.mod_two_eq_zero_or_one b with h | h <;> simp [Nat.bit_val, h] <;> omega
    rw [hbit, hbbit, Nat.lor_bit]
    simp only [Bool.false_or]
    rw [ih _ _ ha' hb']
    rcases Nat.mod_two_eq_zero_or_one b with h | h <;> simp [Nat.bit_val, h] <;> omega

lemma and7_lt (x : Nat) : x &&& 7 < 2 ^ 3 :=
  lt_of_le_of_lt Nat.and_le_right (by norm_num)

lemma and8_dvd (y : Nat) : 2 ^ 3 ∣ y &&& 8 := by
  have h := Nat.and_two_pow y 3
  norm_num at h
  exact ⟨(y.testBit 3).toNat, by rw [h]; ring⟩

/-- The spec-side `(x & 0x7) | (y & 0x8)` equals the source-side sum. -/
lemma or_mask78 (x y : Nat) : (x &&& 7) ||| (y &&& 8) = (x &&& 7) + (y &&& 8) := by
  rw [Nat.lor_comm, or_eq_add 3 _ _ (and8_dvd y) (and7_lt x), Nat.add_comm]

lemma mask_sum_lt16 (x y : Nat) : (x &&& 7) + (y &&& 8) < 16 := by
  have h1 : x &&& 7 ≤ 7 := Nat.and_le_right
  have h2 : y &&& 8 ≤ 8 := Nat.and_le_right
  omega

lemma mask_lt16 (x : Nat) : x &&& 7 < 16 :=
  lt_of_le_of_lt Nat.and_le_right (by norm_num)

/-- The spec-side 16-bit address `r0<<12 | r1<<8 | r2<<4 | r3` equals the
source-side sum of the shifted nibbles. -/
lemma or_nibbles (r0 r1 r2 r3 : Nat) (h0 : r0 < 16) (h1 : r1 < 16) (h2 : r2 < 16)
    (h3 : r3 < 16) :
    r0 <<< 12 ||| r1 <<< 8 ||| r2 <<< 4 ||| r3
      = r0 <<< 12 + r1 <<< 8 + r2 <<< 4 + r3 := by
  rw [Nat.shiftLeft_eq, Nat.shiftLeft_eq, Nat.shiftLeft_eq,
    show (2 : ℕ) ^ 12 = 4096 from by norm_num,
    show (2 : ℕ) ^ 8 = 256 from by norm_num,
    show (2 : ℕ) ^ 4 = 16 from by norm_num]
  have e1 : r0 * 4096 ||| r1 * 256 = r0 * 4096 + r1 * 256 :=
    or_eq_add 12 _ _ ⟨r0, by norm_num; ring⟩ (by omega)
  have e2 : r0 * 4096 + r1 * 256 ||| r2 * 16 = r0 * 4096 + r1 * 256 + r2 * 16 :=
    or_eq_add 8 _ _ ⟨r0 * 16 + r1, by norm_num; ring⟩ (by omega)
  have e3 : r0 * 4096 + r1 * 256 + r2 * 16 ||| r3
      = r0 * 4096 + r1 * 256 + r2 * 16 + r3 :=
    or_eq_add 4 _ _ ⟨r0 * 256 + r1 * 16 + r2, by norm_num; ring⟩ (by omega)
  rw [e1, e2, e3]

/-- The spec-side byte `rHi<<4 | rLo` equals the source-side sum. -/
lemma or_value (r4 r5 : Nat) (h5 : r5 < 16) : r4 <<< 4 ||| r5 = r4 <<< 4 + r5 := by
  rw [Nat.shiftLeft_eq, show (2 : ℕ) ^ 4 = 16 from by norm_num]
  exact or_eq_add 4 _ _ ⟨r4, by norm_num; ring⟩ (by omega)

/-- A decoded 16-bit address is at most `0x7FFF`: its top bit comes from
`r0 = d3 & 0x7`, whose bit 3 is masked off. -/
lemma addr6_le (d1 d2 d3 d4 d5 : Nat) :
    (d3 &&& 7) <<< 12 + ((d5 &&& 7) + (d4 &&& 8)) <<< 8 +
        ((d2 &&& 7) + (d1 &&& 8)) <<< 4 + ((d4 &&& 7) + (d3 &&& 8)) ≤ 0x7FFF := by
  have h0 : d3 &&& 7 ≤ 7 := Nat.and_le_right
  have h1a : d5 &&& 7 ≤ 7 := Nat.and_le_right
  have h1b : d4 &&& 8 ≤ 8 := Nat.and_le_right
  have h2a : d2 &&& 7 ≤ 7 := Nat.and_le_right
  have h2b : d1 &&& 8 ≤ 8 := Nat.and_le_right
  have h3a : d4 &&& 7 ≤ 7 := Nat.and_le_right
  have h3b : d3 &&& 8 ≤ 8 := Nat.and_le_right
  rw [Nat.shiftLeft_eq, Nat.shiftLeft_eq, Nat.shiftLeft_eq,
    show (2 : ℕ) ^ 12 = 4096 from by norm_num,
    show (2 : ℕ) ^ 8 = 256 from by norm_num,
    show (2 : ℕ) ^ 4 = 16 from by norm_num]
  omega

lemma byte_sum_lt (r4 r5 : Nat) (h4 : r4 < 16) (h5 : r5 < 16) :
    r4 <<< 4 + r5 < 2 ^ 8 := by
  rw [Nat.shiftLeft_eq, show (2 : ℕ) ^ 4 = 16 from by norm_num,
    show (2 : ℕ) ^ 8 = 256 from by norm_num]
  omega

/-! ### List and write lemmas -/

lemma set_getD_self : ∀ (l : List Nat) (n : Nat), n < l.length →
    l.set n (l.getD n 0) = l := by
  intro l
  induction l with
  | nil => intro n h; simp at h
  | cons a t ih =>
    intro n h
    cases n with
    | zero => simp
    | succ m =>
      simp only [List.getD_cons_succ, List.set_cons_succ]
      rw [ih m (by simpa using h)]

lemma getD_set_self : ∀ (l : List Nat) (n v : Nat), n < l.length →
    (l.set n v).getD n 0 = v := by
  intro l
  induction l with
  | nil => intro n v h; simp at h
  | cons a t ih =>
    intro n v h
    cases n with
    | zero => simp
    | succ m =>
      simp only [List.set_cons_succ, List.getD_cons_succ]
      exact ih m v (by simpa using h)

lemma getD_snoc (l : List Nat) (v : Nat) : (l ++ [v]).getD l.length 0 = v := by
  induction l with
  | nil => rfl
  | cons a t ih => simpa using ih

lemma writeByte_length_ge (img : List Nat) (off v : Nat) :
    img.length ≤ (writeByte img off v).length := by
  by_cases h : off < img.length
  · unfold writeByte; rw [if_pos h, List.length_set]
  · unfold writeByte; rw [if_neg h]; simp

lemma writeByte_length_of_lt (img : List Nat) (off v : Nat) (h : off < img.length) :
    (writeByte img off v).length = img.length := by
  unfold writeByte; rw [if_pos h, List.length_set]

lemma writeByte_pos_lt (img : List Nat) (off v : Nat) :
    off < (writeByte img off v).length := by
  by_cases h : off < img.length
  · unfold writeByte; rw [if_pos h, List.length_set]; exact h
  · unfold writeByte; rw [if_neg h]; simp; omega

lemma writeByte_getD (img : List Nat) (off v : Nat) :
    (writeByte img off v).getD off 0 = v := by
  by_cases h : off < img.length
  · unfold writeByte; rw [if_pos h]; exact getD_set_self img off v h
  · unfold writeByte; rw [if_neg h]
    have hl : (img ++ List.replicate (off - img.length) 0).length = off := by
      simp; omega
    have hs := getD_snoc (img ++ List.replicate (off - img.length) 0) v
    rwa [hl] at hs

lemma writeByte_stored (l : List Nat) (off v : Nat) (hlt : off < l.length)
    (hv : l.getD off 0 = v) : writeByte l off v = l := by
  unfold writeByte
  rw [if_pos hlt, ← hv]
  exact set_getD_self l off hlt

/-! ### Alphabet lookup and decoding -/

lemma position_of_not_mem (c : Char) : ∀ (l : List Char), c ∉ l →
    position c l = none := by
  intro l
  induction l with
  | nil => intro _; rfl
  | cons x xs ih =>
    intro h
    rw [List.mem_cons, not_or] at h
    have hx : ¬ x = c := fun he => h.1 he.symm
    simp only [position, if_neg hx, ih h.2, Option.map_none']

lemma position_of_mem (c : Char) : ∀ (l : List Char), c ∈ l →
    ∃ n, position c l = some n := by
  intro l
  induction l with
  | nil => intro h; simp at h
  | cons x xs ih =>
    intro h
    by_cases hx : x = c
    · exact ⟨0, by simp [position, hx]⟩
    · have hmem : c ∈ xs := by
        rcases List.mem_cons.mp h with h1 | h1
        · exact absurd h1.symm hx
        · exact h1
      obtain ⟨n, hn⟩ := ih hmem
      exact ⟨n + 1, by simp [position, if_neg hx, hn]⟩

lemma decode_chars_length : ∀ (code : List Char) (ds : List Nat),
    decode_chars code = .ok ds → ds.length = code.length := by
  intro code
  induction code with
  | nil =>
    intro ds h
    simp only [decode_chars] at h
    cases h
    rfl
  | cons ch rest ih =>
    intro ds h
    simp only [decode_chars] at h
    cases hp : position ch NES_CONVERSION with
    | none => rw [hp] at h; simp at h
    | some x =>
      rw [hp] at h
      cases hr : decode_chars rest with
      | error e => rw [hr] at h; simp at h
      | ok xs =>
        rw [hr] at h
        simp only [Except.ok.injEq] at h
        rw [← h]
        simp [ih xs hr]

lemma decode_chars_ok : ∀ (code : List Char),
    (∀ ch ∈ code, ch ∈ NES_CONVERSION) → ∃ ds, decode_chars code = .ok ds := by
  intro code
  induction code with
  | nil => intro _; exact ⟨[], rfl⟩
  | cons ch rest ih =>
    intro h
    obtain ⟨x, hx⟩ := position_of_mem ch NES_CONVERSION (h ch (List.mem_cons_self ch rest))
    obtain ⟨ds, hds⟩ := ih (fun c hc => h c (List.mem_cons_of_mem ch hc))
    exact ⟨x :: ds, by simp [decode_chars, hx, hds]⟩

lemma decode_chars_invalid : ∀ (code : List Char),
    (∃ ch ∈ code, ch ∉ NES_CONVERSION) →
    decode_chars code = .error .invalidChar := by
  intro code
  induction code with
  | nil => intro h; simp at h
  | cons x rest ih =>
    intro h
    by_cases hx : x ∈ NES_CONVERSION
    · have hr : ∃ ch ∈ rest, ch ∉ NES_CONVERSION := by
        obtain ⟨ch, hmem, hnot⟩ := h
        rcases List.mem_cons.mp hmem with h1 | h1
        · exact absurd (h1 ▸ hx) hnot
        · exact ⟨ch, h1, hnot⟩
      obtain ⟨n, hn⟩ := position_of_mem x NES_CONVERSION hx
      simp [decode_chars, hn, ih hr]
    · simp [decode_chars, position_of_not_mem x NES_CONVERSION hx]

lemma list_six (ds : List Nat) (h : ds.length = 6) :
    ∃ d0 d1 d2 d3 d4 d5, ds = [d0, d1, d2, d3, d4, d5] := by
  rcases ds with _ | ⟨d0, ds⟩; · simp at h
  rcases ds with _ | ⟨d1, ds⟩; · simp at h
  rcases ds with _ | ⟨d2, ds⟩; · simp at h
  rcases ds with _ | ⟨d3, ds⟩; · simp at h
  rcases ds with _ | ⟨d4, ds⟩; · simp at h
  rcases ds with _ | ⟨d5, ds⟩; · simp at h
  rcases ds with _ | ⟨d6, ds⟩
  · exact ⟨d0, d1, d2, d3, d4, d5, rfl⟩
  · simp only [List.length_cons] at h; omega

lemma list_eight (ds : List Nat) (h : ds.length = 8) :
    ∃ d0 d1 d2 d3 d4 d5 d6 d7, ds = [d0, d1, d2, d3, d4, d5, d6, d7] := by
  rcases ds with _ | ⟨d0, ds⟩; · simp at h
  rcases ds with _ | ⟨d1, ds⟩; · simp at h
  rcases ds with _ | ⟨d2, ds⟩; · simp at h
  rcases ds with _ | ⟨d3, ds⟩; · simp at h
  rcases ds with _ | ⟨d4, ds⟩; · simp at h
  rcases ds with _ | ⟨d5, ds⟩; · simp at h
  rcases ds with _ | ⟨d6, ds⟩; · simp at h
  rcases ds with _ | ⟨d7, ds⟩; · simp at h
  rcases ds with _ | ⟨d8, ds⟩
  · exact ⟨d0, d1, d2, d3, d4, d5, d6, d7, rfl⟩
  · simp only [List.length_cons] at h; omega


/-! ### Characterizations of `parse_nes` -/

/-- Unfolding of the 6-character branch on a decoded nibble list. -/
lemma parse_nes_six_eq (code : List Char) (file : Nat → Except Unit Nat)
    (b d0 d1 d2 d3 d4 d5 : Nat) (hlen : code.length = 6)
    (hd : decode_chars code = .ok [d0, d1, d2, d3, d4, d5]) :
    parse_nes code file b =
      .ok (((d3 &&& 7) <<< 12 + ((d5 &&& 7) + (d4 &&& 8)) <<< 8 + ((d2 &&& 7) + (d1 &&& 8)) <<< 4 + ((d4 &&& 7) + (d3 &&& 8)) + b) % 2 ^ 64, (((d1 &&& 7) + (d0 &&& 8)) <<< 4 + ((d0 &&& 7) + (d5 &&& 8))) % 2 ^ 8) := by
  unfold parse_nes
  rw [if_pos hlen, hd]
  rfl

/-- Unfolding of the 8-character branch on a decoded nibble list, against a
total image handle. -/
lemma parse_nes_eight_eq (code : List Char) (img : List Nat)
    (b d0 d1 d2 d3 d4 d5 d6 d7 : Nat) (hlen : code.length = 8)
    (hd : decode_chars code = .ok [d0, d1, d2, d3, d4, d5, d6, d7]) :
    parse_nes code (fileOf img) b =
      if img.getD ((((d3 &&& 7) <<< 12 + ((d5 &&& 7) + (d4 &&& 8)) <<< 8 + ((d2 &&& 7) + (d1 &&& 8)) <<< 4 + ((d4 &&& 7) + (d3 &&& 8))) % 2 ^ 16 + b) % 2 ^ 64) 0 ≠ (((d7 &&& 7) + (d6 &&& 8)) <<< 4 + ((d6 &&& 7) + (d5 &&& 8))) % 2 ^ 8 then
        .ok ((((d3 &&& 7) <<< 12 + ((d5 &&& 7) + (d4 &&& 8)) <<< 8 + ((d2 &&& 7) + (d1 &&& 8)) <<< 4 + ((d4 &&& 7) + (d3 &&& 8))) % 2 ^ 16 + b) % 2 ^ 64, img.getD ((((d3 &&& 7) <<< 12 + ((d5 &&& 7) + (d4 &&& 8)) <<< 8 + ((d2 &&& 7) + (d1 &&& 8)) <<< 4 + ((d4 &&& 7) + (d3 &&& 8))) % 2 ^ 16 + b) % 2 ^ 64) 0)
      else
        .ok ((((d3 &&& 7) <<< 12 + ((d5 &&& 7) + (d4 &&& 8)) <<< 8 + ((d2 &&& 7) + (d1 &&& 8)) <<< 4 + ((d4 &&& 7) + (d3 &&& 8))) % 2 ^ 16 + b) % 2 ^ 64, (((d1 &&& 7) + (d0 &&& 8)) <<< 4 + ((d0 &&& 7) + (d7 &&& 8))) % 2 ^ 8) := by
  have h6 : ¬ code.length = 6 := by omega
  unfold parse_nes
  rw [if_neg h6, if_pos hlen, hd]
  rfl

/-- The 8-character branch phrased by the compare semantics: write the
candidate when the live byte equals the compare byte, else write the live
byte back. -/
lemma parse_nes_eight_compare (code : List Char) (img : List Nat)
    (b d0 d1 d2 d3 d4 d5 d6 d7 : Nat) (hlen : code.length = 8)
    (hd : decode_chars code = .ok [d0, d1, d2, d3, d4, d5, d6, d7]) :
    parse_nes code (fileOf img) b =
      .ok ((((d3 &&& 7) <<< 12 + ((d5 &&& 7) + (d4 &&& 8)) <<< 8 + ((d2 &&& 7) + (d1 &&& 8)) <<< 4 + ((d4 &&& 7) + (d3 &&& 8))) % 2 ^ 16 + b) % 2 ^ 64,
        if img.getD ((((d3 &&& 7) <<< 12 + ((d5 &&& 7) + (d4 &&& 8)) <<< 8 + ((d2 &&& 7) + (d1 &&& 8)) <<< 4 + ((d4 &&& 7) + (d3 &&& 8))) % 2 ^ 16 + b) % 2 ^ 64) 0 = (((d7 &&& 7) + (d6 &&& 8)) <<< 4 + ((d6 &&& 7) + (d5 &&& 8))) % 2 ^ 8 then (((d1 &&& 7) + (d0 &&& 8)) <<< 4 + ((d0 &&& 7) + (d7 &&& 8))) % 2 ^ 8
        else img.getD ((((d3 &&& 7) <<< 12 + ((d5 &&& 7) + (d4 &&& 8)) <<< 8 + ((d2 &&& 7) + (d1 &&& 8)) <<< 4 + ((d4 &&& 7) + (d3 &&& 8))) % 2 ^ 16 + b) % 2 ^ 64) 0) := by
  rw [parse_nes_eight_eq code img b d0 d1 d2 d3 d4 d5 d6 d7 hlen hd]
  by_cases hc : img.getD ((((d3 &&& 7) <<< 12 + ((d5 &&& 7) + (d4 &&& 8)) <<< 8 + ((d2 &&& 7) + (d1 &&& 8)) <<< 4 + ((d4 &&& 7) + (d3 &&& 8))) % 2 ^ 16 + b) % 2 ^ 64) 0 = (((d7 &&& 7) + (d6 &&& 8)) <<< 4 + ((d6 &&& 7) + (d5 &&& 8))) % 2 ^ 8
  · rw [if_neg (not_not_intro hc), if_pos hc]
  · rw [if_pos hc, if_neg hc]

/-- An invalid character makes the decoder abort with exit status 32,
whatever the file handle and base offset. -/
lemma parse_nes_invalidChar (code : List Char) (file : Nat → Except Unit Nat)
    (b : Nat) (hlen : code.length = 6 ∨ code.length = 8)
    (hbad : ∃ ch ∈ code, ch ∉ NES_CONVERSION) :
    parse_nes code file b = .error .invalidChar := by
  have hdc := decode_chars_invalid code hbad
  rcases hlen with h6 | h8
  · unfold parse_nes
    rw [if_pos h6, hdc]
  · have h6 : ¬ code.length = 6 := by omega
    unfold parse_nes
    rw [if_neg h6, if_pos h8, hdc]

/-- A length other than 6 or 8 makes the decoder panic. -/
lemma parse_nes_invalidLength (code : List Char) (file : Nat → Except Unit Nat)
    (b : Nat) (h6 : code.length ≠ 6) (h8 : code.length ≠ 8) :
    parse_nes code file b = .error .invalidLength := by
  unfold parse_nes
  rw [if_neg h6, if_neg h8]

/-- The base offset only enters the decoder through `(address + base) % 2^64`,
so congruent bases decode identically. -/
lemma parse_nes_congr_base (code : List Char) (file : Nat → Except Unit Nat)
    (b b' : Nat) (h : b % 2 ^ 64 = b' % 2 ^ 64) :
    parse_nes code file b = parse_nes code file b' := by
  have key : ∀ a : Nat, (a + b) % 2 ^ 64 = (a + b') % 2 ^ 64 := by
    intro a
    rw [← Nat.add_mod_mod, h, Nat.add_mod_mod]
  unfold parse_nes
  by_cases h6 : code.length = 6
  · rw [if_pos h6, if_pos h6]
    cases hds : decode_chars code with
    | error e => rfl
    | ok ds => simp only [key]
  · rw [if_neg h6, if_neg h6]
    by_cases h8 : code.length = 8
    · rw [if_pos h8, if_pos h8]
      cases hds : decode_chars code with
      | error e => rfl
      | ok ds => simp only [key]
    · rw [if_neg h8, if_neg h8]

/-- The decoder succeeds on every valid code against a total image handle. -/
lemma parse_nes_total (code : List Char) (img : List Nat) (b : Nat)
    (h : validCode code) : ∃ o v, parse_nes code (fileOf img) b = .ok (o, v) := by
  obtain ⟨hlen, hv⟩ := h
  obtain ⟨ds, hds⟩ := decode_chars_ok code hv
  have hl := decode_chars_length code ds hds
  rcases hlen with h6 | h8
  · obtain ⟨d0, d1, d2, d3, d4, d5, rfl⟩ := list_six ds (by omega)
    exact ⟨_, _, parse_nes_six_eq code (fileOf img) b d0 d1 d2 d3 d4 d5 h6 hds⟩
  · obtain ⟨d0, d1, d2, d3, d4, d5, d6, d7, rfl⟩ := list_eight ds (by omega)
    exact ⟨_, _, parse_nes_eight_compare code img b d0 d1 d2 d3 d4 d5 d6 d7 h8 hds⟩

/-- Every successful decode determines a raw address `a ≤ 0x7FFF`: the
returned offset is `(a + base) % 2^64`, for this and for every other image
and base offset. -/
lemma parse_nes_ok_offset (code : List Char) (img : List Nat) (b o v : Nat)
    (h : parse_nes code (fileOf img) b = .ok (o, v)) :
    ∃ a, a ≤ 0x7FFF ∧ o = (a + b) % 2 ^ 64 ∧
      ∀ (img' : List Nat) (b' : Nat), ∃ v',
        parse_nes code (fileOf img') b' = .ok ((a + b') % 2 ^ 64, v') := by
  by_cases h6 : code.length = 6
  · cases hds : decode_chars code with
    | error e =>
      unfold parse_nes at h
      rw [if_pos h6, hds] at h
      simp at h
    | ok ds =>
      have hl := decode_chars_length code ds hds
      obtain ⟨d0, d1, d2, d3, d4, d5, rfl⟩ := list_six ds (by omega)
      rw [parse_nes_six_eq code (fileOf img) b d0 d1 d2 d3 d4 d5 h6 hds] at h
      simp only [Except.ok.injEq, Prod.mk.injEq] at h
      refine ⟨(d3 &&& 7) <<< 12 + ((d5 &&& 7) + (d4 &&& 8)) <<< 8 + ((d2 &&& 7) + (d1 &&& 8)) <<< 4 + ((d4 &&& 7) + (d3 &&& 8)), addr6_le d1 d2 d3 d4 d5, h.1.symm, ?_⟩
      intro img' b'
      exact ⟨_, parse_nes_six_eq code (fileOf img') b' d0 d1 d2 d3 d4 d5 h6 hds⟩
  · by_cases h8 : code.length = 8
    · cases hds : decode_chars code with
      | error e =>
        unfold parse_nes at h
        rw [if_neg h6, if_pos h8, hds] at h
        simp at h
      | ok ds =>
        have hl := decode_chars_length code ds hds
        obtain ⟨d0, d1, d2, d3, d4, d5, d6, d7, rfl⟩ := list_eight ds (by omega)
        rw [parse_nes_eight_compare code img b d0 d1 d2 d3 d4 d5 d6 d7 h8 hds] at h
        simp only [Except.ok.injEq, Prod.mk.injEq] at h
        refine ⟨((d3 &&& 7) <<< 12 + ((d5 &&& 7) + (d4 &&& 8)) <<< 8 + ((d2 &&& 7) + (d1 &&& 8)) <<< 4 + ((d4 &&& 7) + (d3 &&& 8))) % 2 ^ 16,
          le_trans (Nat.mod_le _ _) (addr6_le d1 d2 d3 d4 d5), h.1.symm, ?_⟩
        intro img' b'
        exact ⟨_, parse_nes_eight_compare code img' b' d0 d1 d2 d3 d4 d5 d6 d7 h8 hds⟩
    · unfold parse_nes at h
      rw [if_neg h6, if_neg h8] at h
      simp at h

/-! ### The patch loop -/

/-- A prefix of valid codes applies completely, and the rest of the run
continues from its final image (at some accumulated base offset). -/
lemma applyNES_append : ∀ (pre : List (List Char)),
    (∀ c ∈ pre, validCode c) → ∀ (l : List (List Char)) (base : Nat) (img : List Nat),
    ∃ b', applyNES (pre ++ l) base img = applyNES l b' (applyNES pre base img).2 := by
  intro pre
  induction pre with
  | nil =>
    intro _ l base img
    exact ⟨base, rfl⟩
  | cons c pre ih =>
    intro hpre l base img
    obtain ⟨o, v, hp⟩ := parse_nes_total c img base (hpre c (List.mem_cons_self c pre))
    have hrest : ∀ c' ∈ pre, validCode c' := fun c' hm => hpre c' (List.mem_cons_of_mem c hm)
    obtain ⟨b', hb'⟩ := ih hrest l ((base + 0x8000) % 2 ^ 64) (writeByte img o v)
    refine ⟨b', ?_⟩
    simp only [List.cons_append, applyNES, hp]
    exact hb'

/-- The accumulating loop of `main` equals the spec's indexed description:
code `i` is decoded at base `0x10 + i * 0x8000`. -/
lemma applyNES_eq_spec : ∀ (codes : List (List Char)) (i : Nat) (img : List Nat),
    applyNES codes ((0x10 + i * 0x8000) % 2 ^ 64) img = applyNES_spec codes i img := by
  intro codes
  induction codes with
  | nil => intro i img; rfl
  | cons c rest ih =>
    intro i img
    have hmod : ((0x10 + i * 0x8000) % 2 ^ 64) % 2 ^ 64 = (0x10 + i * 0x8000) % 2 ^ 64 :=
      Nat.mod_mod_of_dvd _ dvd_rfl
    have hcongr := parse_nes_congr_base c (fileOf img) ((0x10 + i * 0x8000) % 2 ^ 64)
      (0x10 + i * 0x8000) hmod
    simp only [applyNES, applyNES_spec, hcongr]
    cases hp : parse_nes c (fileOf img) (0x10 + i * 0x8000) with
    | error e => cases e <;> rfl
    | ok pr =>
      obtain ⟨o, v⟩ := pr
      have hbase : ((0x10 + i * 0x8000) % 2 ^ 64 + 0x8000) % 2 ^ 64
          = (0x10 + (i + 1) * 0x8000) % 2 ^ 64 := by
        rw [Nat.mod_add_mod]
        congr 1
        ring
      dsimp only
      rw [hbase]
      exact ih (i + 1) (writeByte img o v)

/-- The loop never shrinks the image. -/
lemma applyNES_length_ge : ∀ (codes : List (List Char)) (base : Nat) (img : List Nat),
    img.length ≤ (applyNES codes base img).2.length := by
  intro codes
  induction codes with
  | nil => intro base img; exact Nat.le_refl _
  | cons c rest ih =>
    intro base img
    simp only [applyNES]
    cases hp : parse_nes c (fileOf img) base with
    | error e => cases e <;> exact Nat.le_refl _
    | ok pr =>
      obtain ⟨o, v⟩ := pr
      exact Nat.le_trans (writeByte_length_ge img o v) (ih _ _)

/-- Writing the compare-decided byte twice at the same location is a no-op
the second time: the decision recomputed on the written image writes back the
byte already stored. -/
lemma write_compare_idem (img : List Nat) (loc cmp cand : Nat) :
    writeByte (writeByte img loc (if img.getD loc 0 = cmp then cand else img.getD loc 0)) loc
        (if (writeByte img loc (if img.getD loc 0 = cmp then cand else img.getD loc 0)).getD
              loc 0 = cmp then
          cand
         else
          (writeByte img loc (if img.getD loc 0 = cmp then cand else img.getD loc 0)).getD
            loc 0)
      = writeByte img loc (if img.getD loc 0 = cmp then cand else img.getD loc 0) := by
  set v1 := if img.getD loc 0 = cmp then cand else img.getD loc 0 with hv1
  have hread : (writeByte img loc v1).getD loc 0 = v1 := writeByte_getD img loc v1
  rw [hread]
  have hv2 : (if v1 = cmp then cand else v1) = v1 := by
    by_cases hc : img.getD loc 0 = cmp
    · have hcand : v1 = cand := by rw [hv1, if_pos hc]
      rw [hcand]
      by_cases h2 : cand = cmp
      · rw [if_pos h2]
      · rw [if_neg h2]
    · have hlive : v1 = img.getD loc 0 := by rw [hv1, if_neg hc]
      rw [hlive, if_neg hc]
  rw [hv2]
  exact writeByte_stored (writeByte img loc v1) loc v1 (writeByte_pos_lt img loc v1) hread

/-! ### The claims -/

/-- C1: a valid 6-character code decodes, with no read of the image, to the
pair whose offset is `(r0<<12 | r1<<8 | r2<<4 | r3) + b` (mod 2^64, the u64
addition) and whose value is `(r4<<4) | r5`, with the rearranged nibbles
taken per the spec's table; in particular `AAAAAA` decodes to offset `b` and
value `0x00`. -/
theorem claim1_nes6_decode (code : List Char) (file1 file2 : Nat → Except Unit Nat)
    (b d0 d1 d2 d3 d4 d5 : Nat) (hlen : code.length = 6)
    (hd : decode_chars code = .ok [d0, d1, d2, d3, d4, d5]) (hb : b < 2 ^ 64) :
    parse_nes code file1 b = .ok ((((d3 &&& 7) <<< 12 ||| ((d5 &&& 7) ||| (d4 &&& 8)) <<< 8 ||| ((d2 &&& 7) ||| (d1 &&& 8)) <<< 4 ||| ((d4 &&& 7) ||| (d3 &&& 8))) + b) % 2 ^ 64, ((d1 &&& 7) ||| (d0 &&& 8)) <<< 4 ||| ((d0 &&& 7) ||| (d5 &&& 8))) ∧
      parse_nes code file1 b = parse_nes code file2 b ∧
      parse_nes ("AAAAAA".toList) file1 b = .ok (b, 0) := by
  have h1 := parse_nes_six_eq code file1 b d0 d1 d2 d3 d4 d5 hlen hd
  have h2 := parse_nes_six_eq code file2 b d0 d1 d2 d3 d4 d5 hlen hd
  refine ⟨?_, h1.trans h2.symm, ?_⟩
  · rw [h1, or_mask78 d5 d4, or_mask78 d2 d1, or_mask78 d4 d3, or_mask78 d1 d0,
      or_mask78 d0 d5,
      or_nibbles _ _ _ _ (mask_lt16 d3) (mask_sum_lt16 d5 d4) (mask_sum_lt16 d2 d1)
        (mask_sum_lt16 d4 d3),
      or_value _ _ (mask_sum_lt16 d0 d5),
      Nat.mod_eq_of_lt (byte_sum_lt _ _ (mask_sum_lt16 d1 d0) (mask_sum_lt16 d0 d5))]
  · have h3 := parse_nes_six_eq ("AAAAAA".toList) file1 b 0 0 0 0 0 0 rfl rfl
    rw [h3]
    simp only [Nat.zero_and, Nat.zero_shiftLeft, Nat.add_zero, Nat.zero_add, Nat.zero_mod,
      Nat.mod_eq_of_lt hb]

/-- C1 witness: the theorem applied to the concrete code `APZLGI` at base
offset 0x10. -/
theorem claim1_nes6_decode_witness :
    parse_nes ("APZLGI".toList) (fileOf []) 0x10 = .ok (0x3534, 0x10) ∧
      parse_nes ("APZLGI".toList) (fileOf []) 0x10
        = parse_nes ("APZLGI".toList) (fileOf [9]) 0x10 ∧
      parse_nes ("AAAAAA".toList) (fileOf []) 0x10 = .ok (0x10, 0) :=
  claim1_nes6_decode ("APZLGI".toList) (fileOf []) (fileOf [9]) 0x10 0 1 2 3 4 5
    rfl rfl (by norm_num)

/-- C2: a valid 8-character code decodes per the spec's table (with
`r5 = (d0&7)|(d7&8)`, `r6 = (d7&7)|(d6&8)`, `r7 = (d6&7)|(d5&8)`), reads the
byte stored at the decoded offset, and returns the candidate when that live
byte equals the compare byte and the live byte itself otherwise. -/
theorem claim2_nes8_compare (code : List Char) (img : List Nat)
    (b d0 d1 d2 d3 d4 d5 d6 d7 : Nat) (hlen : code.length = 8)
    (hd : decode_chars code = .ok [d0, d1, d2, d3, d4, d5, d6, d7])
    (hpos : (((d3 &&& 7) <<< 12 ||| ((d5 &&& 7) ||| (d4 &&& 8)) <<< 8 ||| ((d2 &&& 7) ||| (d1 &&& 8)) <<< 4 ||| ((d4 &&& 7) ||| (d3 &&& 8))) + b) % 2 ^ 64 < img.length) :
    parse_nes code (fileOf img) b =
      .ok ((((d3 &&& 7) <<< 12 ||| ((d5 &&& 7) ||| (d4 &&& 8)) <<< 8 ||| ((d2 &&& 7) ||| (d1 &&& 8)) <<< 4 ||| ((d4 &&& 7) ||| (d3 &&& 8))) + b) % 2 ^ 64,
        if img.getD ((((d3 &&& 7) <<< 12 ||| ((d5 &&& 7) ||| (d4 &&& 8)) <<< 8 ||| ((d2 &&& 7) ||| (d1 &&& 8)) <<< 4 ||| ((d4 &&& 7) ||| (d3 &&& 8))) + b) % 2 ^ 64) 0 = ((d7 &&& 7) ||| (d6 &&& 8)) <<< 4 ||| ((d6 &&& 7) ||| (d5 &&& 8)) then ((d1 &&& 7) ||| (d0 &&& 8)) <<< 4 ||| ((d0 &&& 7) ||| (d7 &&& 8))
        else img.getD ((((d3 &&& 7) <<< 12 ||| ((d5 &&& 7) ||| (d4 &&& 8)) <<< 8 ||| ((d2 &&& 7) ||| (d1 &&& 8)) <<< 4 ||| ((d4 &&& 7) ||| (d3 &&& 8))) + b) % 2 ^ 64) 0) := by
  rw [parse_nes_eight_compare code img b d0 d1 d2 d3 d4 d5 d6 d7 hlen hd,
    or_mask78 d5 d4, or_mask78 d2 d1, or_mask78 d4 d3, or_mask78 d7 d6, or_mask78 d6 d5,
    or_mask78 d1 d0, or_mask78 d0 d7,
    or_nibbles _ _ _ _ (mask_lt16 d3) (mask_sum_lt16 d5 d4) (mask_sum_lt16 d2 d1)
      (mask_sum_lt16 d4 d3),
    or_value _ _ (mask_sum_lt16 d0 d7), or_value _ _ (mask_sum_lt16 d6 d5),
    show ((d3 &&& 7) <<< 12 + ((d5 &&& 7) + (d4 &&& 8)) <<< 8 + ((d2 &&& 7) + (d1 &&& 8)) <<< 4 + ((d4 &&& 7) + (d3 &&& 8))) % 2 ^ 16 = (d3 &&& 7) <<< 12 + ((d5 &&& 7) + (d4 &&& 8)) <<< 8 + ((d2 &&& 7) + (d1 &&& 8)) <<< 4 + ((d4 &&& 7) + (d3 &&& 8)) from
      Nat.mod_eq_of_lt (lt_of_le_of_lt (addr6_le d1 d2 d3 d4 d5) (by norm_num)),
    show (((d1 &&& 7) + (d0 &&& 8)) <<< 4 + ((d0 &&& 7) + (d7 &&& 8))) % 2 ^ 8 = ((d1 &&& 7) + (d0 &&& 8)) <<< 4 + ((d0 &&& 7) + (d7 &&& 8)) from
      Nat.mod_eq_of_lt (byte_sum_lt _ _ (mask_sum_lt16 d1 d0) (mask_sum_lt16 d0 d7)),
    show (((d7 &&& 7) + (d6 &&& 8)) <<< 4 + ((d6 &&& 7) + (d5 &&& 8))) % 2 ^ 8 = ((d7 &&& 7) + (d6 &&& 8)) <<< 4 + ((d6 &&& 7) + (d5 &&& 8)) from
      Nat.mod_eq_of_lt (byte_sum_lt _ _ (mask_sum_lt16 d7 d6) (mask_sum_lt16 d6 d5))]

/-- C2 witness: on the code `AAAAAAAA` over the one-byte image `[5]`, the
live byte 5 differs from the compare byte 0, so the decoder returns the live
byte unchanged. -/
theorem claim2_nes8_compare_witness :
    parse_nes ("AAAAAAAA".toList) (fileOf [5]) 0 = .ok (0, 5) :=
  claim2_nes8_compare ("AAAAAAAA".toList) [5] 0 0 0 0 0 0 0 0 0 rfl rfl (by decide)

/-- C5: applying a valid 8-character code twice in succession at the same
base offset is idempotent on image content. -/
theorem claim5_nes8_idempotent (code : List Char) (b : Nat) (img : List Nat)
    (hlen : code.length = 8) (hv : ∀ ch ∈ code, ch ∈ NES_CONVERSION) :
    applyCode code b (applyCode code b img) = applyCode code b img := by
  obtain ⟨ds, hds⟩ := decode_chars_ok code hv
  have hl := decode_chars_length code ds hds
  obtain ⟨d0, d1, d2, d3, d4, d5, d6, d7, rfl⟩ := list_eight ds (by omega)
  have e1 : applyCode code b img =
      writeByte img ((((d3 &&& 7) <<< 12 + ((d5 &&& 7) + (d4 &&& 8)) <<< 8 + ((d2 &&& 7) + (d1 &&& 8)) <<< 4 + ((d4 &&& 7) + (d3 &&& 8))) % 2 ^ 16 + b) % 2 ^ 64)
        (if img.getD ((((d3 &&& 7) <<< 12 + ((d5 &&& 7) + (d4 &&& 8)) <<< 8 + ((d2 &&& 7) + (d1 &&& 8)) <<< 4 + ((d4 &&& 7) + (d3 &&& 8))) % 2 ^ 16 + b) % 2 ^ 64) 0 = (((d7 &&& 7) + (d6 &&& 8)) <<< 4 + ((d6 &&& 7) + (d5 &&& 8))) % 2 ^ 8 then (((d1 &&& 7) + (d0 &&& 8)) <<< 4 + ((d0 &&& 7) + (d7 &&& 8))) % 2 ^ 8 else img.getD ((((d3 &&& 7) <<< 12 + ((d5 &&& 7) + (d4 &&& 8)) <<< 8 + ((d2 &&& 7) + (d1 &&& 8)) <<< 4 + ((d4 &&& 7) + (d3 &&& 8))) % 2 ^ 16 + b) % 2 ^ 64) 0) := by
    unfold applyCode
    rw [parse_nes_eight_compare code img b d0 d1 d2 d3 d4 d5 d6 d7 hlen hds]
  rw [e1]
  unfold applyCode
  rw [parse_nes_eight_compare code
    (writeByte img ((((d3 &&& 7) <<< 12 + ((d5 &&& 7) + (d4 &&& 8)) <<< 8 + ((d2 &&& 7) + (d1 &&& 8)) <<< 4 + ((d4 &&& 7) + (d3 &&& 8))) % 2 ^ 16 + b) % 2 ^ 64)
      (if img.getD ((((d3 &&& 7) <<< 12 + ((d5 &&& 7) + (d4 &&& 8)) <<< 8 + ((d2 &&& 7) + (d1 &&& 8)) <<< 4 + ((d4 &&& 7) + (d3 &&& 8))) % 2 ^ 16 + b) % 2 ^ 64) 0 = (((d7 &&& 7) + (d6 &&& 8)) <<< 4 + ((d6 &&& 7) + (d5 &&& 8))) % 2 ^ 8 then (((d1 &&& 7) + (d0 &&& 8)) <<< 4 + ((d0 &&& 7) + (d7 &&& 8))) % 2 ^ 8 else img.getD ((((d3 &&& 7) <<< 12 + ((d5 &&& 7) + (d4 &&& 8)) <<< 8 + ((d2 &&& 7) + (d1 &&& 8)) <<< 4 + ((d4 &&& 7) + (d3 &&& 8))) % 2 ^ 16 + b) % 2 ^ 64) 0))
    b d0 d1 d2 d3 d4 d5 d6 d7 hlen hds]
  exact write_compare_idem img ((((d3 &&& 7) <<< 12 + ((d5 &&& 7) + (d4 &&& 8)) <<< 8 + ((d2 &&& 7) + (d1 &&& 8)) <<< 4 + ((d4 &&& 7) + (d3 &&& 8))) % 2 ^ 16 + b) % 2 ^ 64) ((((d7 &&& 7) + (d6 &&& 8)) <<< 4 + ((d6 &&& 7) + (d5 &&& 8))) % 2 ^ 8) ((((d1 &&& 7) + (d0 &&& 8)) <<< 4 + ((d0 &&& 7) + (d7 &&& 8))) % 2 ^ 8)

/-- C5 witness: the theorem applied to `AAAAAAAA` at base 0 on the image `[5]`. -/
theorem claim5_nes8_idempotent_witness :
    applyCode ("AAAAAAAA".toList) 0 (applyCode ("AAAAAAAA".toList) 0 [5])
      = applyCode ("AAAAAAAA".toList) 0 [5] :=
  claim5_nes8_idempotent ("AAAAAAAA".toList) 0 [5] rfl (by decide)

/-- C6: decoding a valid 6-character code is total and deterministic — the
value does not depend on the image or the base offset, and the offsets for
two base offsets differ by exactly their difference. -/
theorem claim6_nes6_deterministic (code : List Char) (img1 img2 : List Nat)
    (b1 b2 : Nat) (hlen : code.length = 6)
    (hv : ∀ ch ∈ code, ch ∈ NES_CONVERSION) (hb : b2 ≤ b1)
    (hM : b1 + 0x7FFF < 2 ^ 64) :
    ∃ o1 o2 v, parse_nes code (fileOf img1) b1 = .ok (o1, v) ∧
      parse_nes code (fileOf img2) b2 = .ok (o2, v) ∧ o1 - o2 = b1 - b2 := by
  obtain ⟨ds, hds⟩ := decode_chars_ok code hv
  have hl := decode_chars_length code ds hds
  obtain ⟨d0, d1, d2, d3, d4, d5, rfl⟩ := list_six ds (by omega)
  have h1 := parse_nes_six_eq code (fileOf img1) b1 d0 d1 d2 d3 d4 d5 hlen hds
  have h2 := parse_nes_six_eq code (fileOf img2) b2 d0 d1 d2 d3 d4 d5 hlen hds
  have hA := addr6_le d1 d2 d3 d4 d5
  rw [two_pow_64] at hM
  have e1 : (((d3 &&& 7) <<< 12 + ((d5 &&& 7) + (d4 &&& 8)) <<< 8 + ((d2 &&& 7) + (d1 &&& 8)) <<< 4 + ((d4 &&& 7) + (d3 &&& 8))) + b1) % 2 ^ 64 = ((d3 &&& 7) <<< 12 + ((d5 &&& 7) + (d4 &&& 8)) <<< 8 + ((d2 &&& 7) + (d1 &&& 8)) <<< 4 + ((d4 &&& 7) + (d3 &&& 8))) + b1 :=
    Nat.mod_eq_of_lt (by rw [two_pow_64]; omega)
  have e2 : (((d3 &&& 7) <<< 12 + ((d5 &&& 7) + (d4 &&& 8)) <<< 8 + ((d2 &&& 7) + (d1 &&& 8)) <<< 4 + ((d4 &&& 7) + (d3 &&& 8))) + b2) % 2 ^ 64 = ((d3 &&& 7) <<< 12 + ((d5 &&& 7) + (d4 &&& 8)) <<< 8 + ((d2 &&& 7) + (d1 &&& 8)) <<< 4 + ((d4 &&& 7) + (d3 &&& 8))) + b2 :=
    Nat.mod_eq_of_lt (by rw [two_pow_64]; omega)
  rw [e1] at h1
  rw [e2] at h2
  exact ⟨_, _, _, h1, h2, by omega⟩

/-- C6 witness: the theorem applied to `APZLGI` at base offsets 0x8010 and
0x10 over different images. -/
theorem claim6_nes6_deterministic_witness :
    ∃ o1 o2 v, parse_nes ("APZLGI".toList) (fileOf []) 0x8010 = .ok (o1, v) ∧
      parse_nes ("APZLGI".toList) (fileOf [7]) 0x10 = .ok (o2, v) ∧
      o1 - o2 = 0x8010 - 0x10 :=
  claim6_nes6_deterministic ("APZLGI".toList) [] [7] 0x8010 0x10 rfl (by decide)
    (by norm_num) (by norm_num)

/-- C10: every valid code's raw decoded address is at most 0x7FFF, so the
offset decoded for the i-th code lies in the half-open bank window
`[0x10 + i*0x8000, 0x10 + (i+1)*0x8000)`. -/
theorem claim10_bank_window (code : List Char) (img : List Nat) (i : Nat)
    (hv : validCode code) (hM : 0x10 + (i + 1) * 0x8000 ≤ 2 ^ 64) :
    ∃ a v0, parse_nes code (fileOf img) 0 = .ok (a, v0) ∧ a ≤ 0x7FFF ∧
      ∃ o v, parse_nes code (fileOf img) (0x10 + i * 0x8000) = .ok (o, v) ∧
        0x10 + i * 0x8000 ≤ o ∧ o < 0x10 + (i + 1) * 0x8000 := by
  obtain ⟨o0, v0, h0⟩ := parse_nes_total code img 0 hv
  obtain ⟨a, hale, hao, hall⟩ := parse_nes_ok_offset code img 0 o0 v0 h0
  have ha : o0 = a := by
    rw [hao, Nat.add_zero]
    exact Nat.mod_eq_of_lt (by rw [two_pow_64]; omega)
  obtain ⟨v, hvp⟩ := hall img (0x10 + i * 0x8000)
  rw [two_pow_64] at hM
  have hlt : a + (0x10 + i * 0x8000) < 2 ^ 64 := by
    rw [two_pow_64]
    omega
  rw [Nat.mod_eq_of_lt hlt] at hvp
  exact ⟨o0, v0, h0, by omega, a + (0x10 + i * 0x8000), v, hvp, by omega, by omega⟩

/-- C10 witness: the theorem applied to `AAAAAA` at bank index 0. -/
theorem claim10_bank_window_witness :
    ∃ a v0, parse_nes ("AAAAAA".toList) (fileOf []) 0 = .ok (a, v0) ∧ a ≤ 0x7FFF ∧
      ∃ o v, parse_nes ("AAAAAA".toList) (fileOf []) (0x10 + 0 * 0x8000) = .ok (o, v) ∧
        0x10 + 0 * 0x8000 ≤ o ∧ o < 0x10 + (0 + 1) * 0x8000 :=
  claim10_bank_window ("AAAAAA".toList) [] 0 ⟨Or.inl rfl, by decide⟩ (by norm_num)

/-- C3: the Patch Applier processes codes in input order, decoding the i-th
code at Base Offset exactly `0x10 + i * 0x8000`; two codes with the same raw
decoded address at positions `i < j` land at final offsets differing by
exactly `(j - i) * 0x8000`. -/
theorem claim3_bank_sequencing :
    (∀ (codes : List (List Char)) (img : List Nat),
        runNES codes img = applyNES_spec codes 0 img) ∧
    (∀ (c c' : List Char) (img0 img0' imgi imgj : List Nat)
        (i j a v0 v0' oi vi oj vj : Nat),
        parse_nes c (fileOf img0) 0 = .ok (a, v0) →
        parse_nes c' (fileOf img0') 0 = .ok (a, v0') →
        i < j → 0x10 + j * 0x8000 + 0x8000 ≤ 2 ^ 64 →
        parse_nes c (fileOf imgi) (0x10 + i * 0x8000) = .ok (oi, vi) →
        parse_nes c' (fileOf imgj) (0x10 + j * 0x8000) = .ok (oj, vj) →
        oi < oj ∧ oj - oi = (j - i) * 0x8000) := by
  constructor
  · intro codes img
    have h := applyNES_eq_spec codes 0 img
    have h0 : (0x10 + 0 * 0x8000) % 2 ^ 64 = 0x10 := by norm_num
    rw [h0] at h
    exact h
  · intro c c' img0 img0' imgi imgj i j a v0 v0' oi vi oj vj h0 h0' hij hM hi hj
    obtain ⟨a1, ha1le, ha1o, hall1⟩ := parse_nes_ok_offset c img0 0 a v0 h0
    obtain ⟨a2, ha2le, ha2o, hall2⟩ := parse_nes_ok_offset c' img0' 0 a v0' h0'
    have ha1 : a = a1 := by
      rw [ha1o, Nat.add_zero]
      exact Nat.mod_eq_of_lt (by rw [two_pow_64]; omega)
    have ha2 : a = a2 := by
      rw [ha2o, Nat.add_zero]
      exact Nat.mod_eq_of_lt (by rw [two_pow_64]; omega)
    obtain ⟨v1, hv1⟩ := hall1 imgi (0x10 + i * 0x8000)
    obtain ⟨v2, hv2⟩ := hall2 imgj (0x10 + j * 0x8000)
    rw [two_pow_64] at hM
    have hoi : oi = (a1 + (0x10 + i * 0x8000)) % 2 ^ 64 := by
      have hcomb := hv1.symm.trans hi
      simp only [Except.ok.injEq, Prod.mk.injEq] at hcomb
      exact hcomb.1.symm
    have hoj : oj = (a2 + (0x10 + j * 0x8000)) % 2 ^ 64 := by
      have hcomb := hv2.symm.trans hj
      simp only [Except.ok.injEq, Prod.mk.injEq] at hcomb
      exact hcomb.1.symm
    have ei : (a1 + (0x10 + i * 0x8000)) % 2 ^ 64 = a1 + (0x10 + i * 0x8000) :=
      Nat.mod_eq_of_lt (by rw [two_pow_64]; omega)
    have ej : (a2 + (0x10 + j * 0x8000)) % 2 ^ 64 = a2 + (0x10 + j * 0x8000) :=
      Nat.mod_eq_of_lt (by rw [two_pow_64]; omega)
    rw [ei] at hoi
    rw [ej] at hoj
    exact ⟨by omega, by omega⟩

/-- C3 witness: one `AAAAAA` run matches the indexed description, and the
same raw address at positions 0 and 1 lands `0x8000` apart. -/
theorem claim3_bank_sequencing_witness :
    runNES ["AAAAAA".toList] [] = applyNES_spec ["AAAAAA".toList] 0 [] ∧
      ((0x10 : Nat) < 0x8010 ∧ (0x8010 : Nat) - 0x10 = (1 - 0) * 0x8000) :=
  ⟨claim3_bank_sequencing.1 ["AAAAAA".toList] [],
   claim3_bank_sequencing.2 ("AAAAAA".toList) ("AAAAAA".toList) [] [] [] []
     0 1 0 0 0 0x10 0 0x8010 0 rfl rfl (by norm_num) (by norm_num) rfl rfl⟩

/-- C4: a code of length 6 or 8 containing a character outside the alphabet
terminates the run with exit status 32 after the valid codes before it have
been applied; neither its byte nor any later code's byte is written. -/
theorem claim4_invalid_char_exit32 (pre rest : List (List Char)) (bad : List Char)
    (img : List Nat) (hpre : ∀ c ∈ pre, validCode c)
    (hlen : bad.length = 6 ∨ bad.length = 8)
    (hbad : ∃ ch ∈ bad, ch ∉ NES_CONVERSION) :
    runNES (pre ++ bad :: rest) img = (.exitCode32, (runNES pre img).2) := by
  obtain ⟨b', hb'⟩ := applyNES_append pre hpre (bad :: rest) 0x10 img
  unfold runNES
  rw [hb']
  have hp := parse_nes_invalidChar bad (fileOf (applyNES pre 0x10 img).2) b' hlen hbad
  simp only [applyNES, hp]

/-- C4 witness: an invalid character `Q` in the second of three codes stops
the run with status 32 and leaves only the first code's write. -/
theorem claim4_invalid_char_exit32_witness :
    runNES (["AAAAAA".toList] ++ "QQQQQQ".toList :: ["AAAAAA".toList])
        (List.replicate 17 3)
      = (.exitCode32, (runNES ["AAAAAA".toList] (List.replicate 17 3)).2) :=
  claim4_invalid_char_exit32 ["AAAAAA".toList] ["AAAAAA".toList] ("QQQQQQ".toList)
    (List.replicate 17 3) (by decide) (by decide) (by decide)

/-- C7: a code whose length is neither 6 nor 8 — such as the empty string an
adjacent `++` in the CODES argument splits off — panics the run after the
valid codes before it, writing nothing for it or any later code. -/
theorem claim7_invalid_length_fatal (pre rest : List (List Char)) (bad : List Char)
    (img : List Nat) (hpre : ∀ c ∈ pre, validCode c)
    (h6 : bad.length ≠ 6) (h8 : bad.length ≠ 8) :
    runNES (pre ++ bad :: rest) img = (.panicked, (runNES pre img).2) := by
  obtain ⟨b', hb'⟩ := applyNES_append pre hpre (bad :: rest) 0x10 img
  unfold runNES
  rw [hb']
  have hp := parse_nes_invalidLength bad (fileOf (applyNES pre 0x10 img).2) b' h6 h8
  simp only [applyNES, hp]

/-- C7 witness: the empty code (as produced by splitting `AAAAAA+` on `+`)
panics the run after the first code applied. -/
theorem claim7_invalid_length_fatal_witness :
    runNES (["AAAAAA".toList] ++ "".toList :: []) (List.replicate 17 3)
      = (.panicked, (runNES ["AAAAAA".toList] (List.replicate 17 3)).2) :=
  claim7_invalid_length_fatal ["AAAAAA".toList] [] ("".toList) (List.replicate 17 3)
    (by decide) (by decide) (by decide)

/-- C8 counterexample: with a failing positioned write on the first code, the
run aborts by panic but the output file is NOT removed — it remains with its
copied content, contradicting the claim that on any I/O failure the
partially-copied output file is removed. -/
theorem claim8_counterexample :
    (runMain (Env.mk true true none (fun _ => false) (fun _ => true)) [0]
        ["AAAAAA".toList]).1 = .panicked ∧
      (runMain (Env.mk true true none (fun _ => false) (fun _ => true)) [0]
        ["AAAAAA".toList]).2 ≠ none := by
  exact ⟨rfl, by decide⟩

/-- C8 amended: only the failure to open the destination removes the partial
file and returns early; a run aborted by a failed positioned read or write
during patching panics with the output file still present (a failed copy is
itself ignored, surfacing only if the destination then cannot be opened). -/
theorem claim8_cleanup_amended (env : Env) (romIn : List Nat)
    (codes : List (List Char)) :
    (env.openOk = false → runMain env romIn codes = (.returnedEarly, none)) ∧
      ((runMain env romIn codes).1 = .panicked →
        (runMain env romIn codes).2 ≠ none) := by
  unfold runMain
  cases hc : (if env.copyOk then some romIn else env.preexisting : Option (List Nat)) with
  | none => exact ⟨fun _ => rfl, fun h => nomatch h⟩
  | some content =>
    cases ho : env.openOk with
    | false => exact ⟨fun _ => rfl, fun h => by simp at h⟩
    | true =>
      constructor
      · intro hfalse
        exact absurd hfalse (by simp)
      · intro _
        simp

/-- C8 amended witness: an open failure removes the file and returns early; a
write failure panics with the file present. -/
theorem claim8_cleanup_amended_witness :
    runMain (Env.mk true false none (fun _ => false) (fun _ => false)) [4] []
        = (.returnedEarly, none) ∧
      (runMain (Env.mk true true none (fun _ => false) (fun _ => true)) [4]
        ["APZLGI".toList]).2 ≠ none :=
  ⟨(claim8_cleanup_amended (Env.mk true false none (fun _ => false) (fun _ => false))
      [4] []).1 rfl,
   (claim8_cleanup_amended (Env.mk true true none (fun _ => false) (fun _ => true))
      [4] ["APZLGI".toList]).2 rfl⟩

/-- C9 counterexample: on a 16-byte image (bare header), the code `AAAAAA`
decodes to offset 0x10 = 16, one past the end, and the positioned write
extends the file from 16 to 17 bytes — the image IS resized, contradicting
the claim that no write ever changes its length. -/
theorem claim9_counterexample :
    ((runNES ["AAAAAA".toList] (List.replicate 0x10 0)).2).length
      ≠ (List.replicate 0x10 0).length := by decide

/-- C9 amended: the image is never shrunk, and a write at an offset inside
the current length leaves the length unchanged; only a write at or beyond the
end grows the file (to offset + 1, per `pwrite`). -/
theorem claim9_resize_amended :
    (∀ (codes : List (List Char)) (img : List Nat),
        img.length ≤ (runNES codes img).2.length) ∧
      (∀ (img : List Nat) (off v : Nat), off < img.length →
        (writeByte img off v).length = img.length) := by
  constructor
  · intro codes img
    exact applyNES_length_ge codes 0x10 img
  · intro img off v h
    exact writeByte_length_of_lt img off v h

/-- C9 amended witness: the theorem applied to an empty run and an in-bounds
write. -/
theorem claim9_resize_amended_witness :
    ([3] : List Nat).length ≤ (runNES [] [3]).2.length ∧
      (writeByte [3] 0 9).length = ([3] : List Nat).length :=
  ⟨claim9_resize_amended.1 [] [3], claim9_resize_amended.2 [3] 0 9 (by decide)⟩

end RGGP
